import Mathlib

/-!
Shallow embedding of `src/simplify.py` (py-egm-etopo-parser).

Modelling conventions:
* Text input files are `PyFile α`: a list of already-tokenised rows plus a
  read cursor (`pos`).  Iterating a file consumes rows from `pos`;
  `seek(SEEK_SET)` sets `pos := 0`.  ETOPO rows are lists of numbers,
  EGM rows are `(latitude, longitude, undulation)` triples (the scripts
  destructure each EGM line into exactly three floats).
* Python floats are modelled by exact arithmetic: `ℚ` for the grid pipeline,
  `ℝ` for the trigonometric projection `geo2car`.
* `int(x)` on a float truncates toward zero: `pyInt`.
* `round(x, 2)` rounds half to even at two decimals: `pyRound2`.
* `itertools.islice(f, 0, stop, step)`, fully consumed, yields the rows at
  offsets `0, step, 2*step, … < stop` and advances the cursor by
  `min(stop, remaining)` rows; `islice(f, 0, None, step)` yields every
  `step`-th row to the end.  `everyNth` models the yielded rows, and
  `List.take`/`List.drop` model the cursor movement.
* Functions whose Python counterpart raises (IndexError on a short list,
  TypeError from `int(pm / None)`, ValueError from a non-positive islice
  step or a negative stop) return `none`.
-/

/-- Truncation of a rational toward zero, the behaviour of Python `int()`
on a float. -/
def pyInt (q : ℚ) : ℤ :=
  if q < 0 then -⌊-q⌋ else ⌊q⌋

/-- Rounding to the nearest integer, ties to the even neighbour: the rounding
of Python `round()`. -/
def roundHalfEven (q : ℚ) : ℤ :=
  if Int.fract q < 1/2 then ⌊q⌋
  else if 1/2 < Int.fract q then ⌊q⌋ + 1
  else if Even ⌊q⌋ then ⌊q⌋ else ⌊q⌋ + 1

/-- Python `round(q, 2)`: round half to even at two decimal places. -/
def pyRound2 (q : ℚ) : ℚ :=
  (roundHalfEven (q * 100) : ℚ) / 100

/-- Helper for `everyNth`: `skip` rows remain to be skipped before the next
row is kept. -/
def everyNthAux {α : Type} (s : ℕ) : ℕ → List α → List α
  | _, [] => []
  | 0, x :: rest => x :: everyNthAux s (s - 1) rest
  | skip + 1, _ :: rest => everyNthAux s skip rest

/-- The rows at offsets `0, s, 2*s, …` of a list: Python `l[::s]` and the
rows yielded by `islice(f, 0, None, s)` (for `s ≥ 1`). -/
def everyNth {α : Type} (s : ℕ) (l : List α) : List α :=
  everyNthAux s 0 l

/-- A text file: tokenised rows plus the read cursor. -/
structure PyFile (α : Type) where
  rows : List α
  pos : ℕ

/-- The rows still ahead of the read cursor. -/
def PyFile.rest {α : Type} (f : PyFile α) : List α :=
  f.rows.drop f.pos

/-- Embedding of `get_paso_malla_etopo` (src/simplify.py:209-224): read one
row, count its numeric fields, seek back to the start, and return
`60 / ((num_elements - 1) / 360)`.  An empty file falls off the loop and
returns Python `None`, modelled as `none`. -/
def get_paso_malla_etopo (f : PyFile (List ℚ)) : Option (ℚ × PyFile (List ℚ)) :=
  match f.rest with
  | [] => none
  | line :: _ =>
    let num_elements : ℕ := line.length
    some (60 / (((num_elements : ℚ) - 1) / 360), PyFile.mk f.rows 0)

/-- Embedding of `get_paso_malla_egm` (src/simplify.py:186-206): read the
longitudes of the first two rows, seek back to the start, and return
`round(|lon₂ - lon₁| * 60, 2)`.  Fewer than two rows fall off the loop and
return Python `None`, modelled as `none`. -/
def get_paso_malla_egm (f : PyFile (ℚ × ℚ × ℚ)) : Option (ℚ × PyFile (ℚ × ℚ × ℚ)) :=
  match f.rest with
  | r1 :: r2 :: _ => some (pyRound2 (|r2.2.1 - r1.2.1| * 60), PyFile.mk f.rows 0)
  | _ => none

/-- Embedding of `parse_line` inside `simplifyETOPO` (src/simplify.py:69-81):
reorder the row from `[-180…180)` to `[0…360)` layout by
`line[middle : -1] ++ line[ : middle]`, keep every `salto`-th value and
convert to meters (`x * 1000`). -/
def etopoParseLine (middle salto : ℕ) (l : List ℚ) : List ℚ :=
  let merged := (l.drop middle).dropLast ++ l.take middle
  (everyNth salto merged).map (fun x => x * 1000)

/-- Embedding of `simplifyETOPO` (src/simplify.py:59-91): detect the native
step, compute `salto = int(target/native)` and
`middle = floor(360 * (60/native) / 2)`, and flatten the parsed rows taken
by `islice(file, 0, None, salto)`.  `none` models the Python error paths
(empty file: `TypeError` on `None`; `salto ≤ 0`: `ValueError` from islice). -/
def simplifyETOPO (paso_malla_salida : ℚ) (file : PyFile (List ℚ)) : Option (List ℚ) :=
  match get_paso_malla_etopo file with
  | none => none
  | some (paso_malla_fichero, file1) =>
    let salto : ℤ := pyInt (paso_malla_salida / paso_malla_fichero)
    let middle : ℤ := ⌊360 * (60 / paso_malla_fichero) / 2⌋
    if salto ≤ 0 then none
    else
      some (((everyNth salto.toNat file1.rest).map
        (etopoParseLine middle.toNat salto.toNat)).flatten)

/-- The banded loop of `simplifyEGM08` (src/simplify.py:125-135), one
iteration per retained latitude band: keep every `salto`-th row among the
first `salto_lat - 1` rows of the band (the rows `islice(file, 0,
salto_lat - 1, salto)` yields), then discard `rest_of_lines` further rows. -/
def egmLoop (salto salto_lat rest_of_lines : ℕ) : ℕ → List (ℚ × ℚ × ℚ) → List (ℚ × ℚ × ℚ)
  | 0, _ => []
  | b + 1, rows =>
    everyNth salto (rows.take (salto_lat - 1)) ++
      egmLoop salto salto_lat rest_of_lines b ((rows.drop (salto_lat - 1)).drop rest_of_lines)

/-- Embedding of `simplifyEGM08` (src/simplify.py:94-137): detect the native
step, compute `salto = int(target/native)`, `salto_lat = int(360*60/native)`,
`rest_of_lines = salto*salto_lat - salto_lat + 1` and
`final = floor(180 * (60/target)) + 1`, then run the band loop `final`
times.  `none` models the Python error paths (short file: `TypeError` on
`None`; `salto ≤ 0` or `salto_lat ≤ 0`: `ValueError` from islice). -/
def simplifyEGM08 (paso_malla_salida : ℚ) (file : PyFile (ℚ × ℚ × ℚ)) :
    Option (List (ℚ × ℚ × ℚ)) :=
  match get_paso_malla_egm file with
  | none => none
  | some (paso_malla_fichero, file1) =>
    let salto : ℤ := pyInt (paso_malla_salida / paso_malla_fichero)
    let salto_lat : ℤ := pyInt (360 * 60 / paso_malla_fichero)
    if salto ≤ 0 ∨ salto_lat ≤ 0 then none
    else
      let rest_of_lines : ℕ := (salto * salto_lat - salto_lat + 1).toNat
      let final : ℕ := (⌊(180 : ℚ) * (60 / paso_malla_salida)⌋ + 1).toNat
      some (egmLoop salto.toNat salto_lat.toNat rest_of_lines final file1.rest)

/- WGS84 constants of `geo2car` (src/simplify.py:149-159), hoisted to
top-level definitions so the claims can name them. -/
namespace WGS84

/-- Semieje mayor WGS84 (`a = 6378137`). -/
noncomputable def a : ℝ := 6378137

/-- Aplanamiento (`f = 1.0/298.257223563`). -/
noncomputable def f : ℝ := 1.0 / 298.257223563

/-- Semieje menor (`b = a - a*f`). -/
noncomputable def b : ℝ := a - a * f

/-- Excentricidad lineal (`el = sqrt(a**2 - b**2)`). -/
noncomputable def el : ℝ := Real.sqrt (a ^ 2 - b ^ 2)

/-- Primera excentricidad (`pe = el/a`). -/
noncomputable def pe : ℝ := el / a

end WGS84

/-- The square root `sqrt(1 - pe**2 * sin(lat_)**2)` that `geo2car` divides
by (src/simplify.py:162-164). -/
noncomputable def geo2carDenom (lat_ : ℝ) : ℝ :=
  Real.sqrt (1 - WGS84.pe ^ 2 * Real.sin lat_ ^ 2)

/-- Embedding of `geo2car` (src/simplify.py:141-171): geodetic `(lon, lat, h)`
in degrees and meters to geocentric cartesian `[x, y, z]`, the height first
multiplied by the exaggeration factor.  The Python default
`factor_exageracion = 1` is passed explicitly here. -/
noncomputable def geo2car (lon lat h factor_exageracion : ℝ) : ℝ × ℝ × ℝ :=
  let hx := h * factor_exageracion
  let lon_ := lon * Real.pi / 180
  let lat_ := lat * Real.pi / 180
  let v := WGS84.a / geo2carDenom lat_
  ((v + hx) * Real.cos lat_ * Real.cos lon_,
   (v + hx) * Real.cos lat_ * Real.sin lon_,
   (WGS84.b ^ 2 / WGS84.a ^ 2 * v + hx) * Real.sin lat_)

/-- One decimal digit as a character. -/
def decDigit (n : ℕ) : Char :=
  match n with
  | 0 => '0' | 1 => '1' | 2 => '2' | 3 => '3' | 4 => '4'
  | 5 => '5' | 6 => '6' | 7 => '7' | 8 => '8' | _ => '9'

/-- Decimal digits of a natural number (most significant first); `fuel`
bounds the recursion and any `fuel ≥ n` is enough. -/
def natDigits : ℕ → ℕ → List Char
  | 0, _ => []
  | fuel + 1, n => if n < 10 then [decDigit n] else natDigits fuel (n / 10) ++ [decDigit (n % 10)]

/-- The last six decimal digits of a natural number, zero-padded: the
fractional part printed by a `'{:.6f}'` format. -/
def sixDigits (n : ℕ) : List Char :=
  [decDigit (n / 100000 % 10), decDigit (n / 10000 % 10), decDigit (n / 1000 % 10),
   decDigit (n / 100 % 10), decDigit (n / 10 % 10), decDigit (n % 10)]

/-- Rounding to the nearest integer, ties to even, over any ordered field
with a floor: the rounding Python applies when formatting. -/
def fieldRoundHalfEven {α : Type} [LinearOrderedField α] [FloorRing α] (x : α) : ℤ :=
  if Int.fract x < 1/2 then ⌊x⌋
  else if 1/2 < Int.fract x then ⌊x⌋ + 1
  else if Even ⌊x⌋ then ⌊x⌋ else ⌊x⌋ + 1

/-- Python `'{:.6f}'.format(x)` for `x ≥ 0`: the value rounded half-to-even
at the sixth decimal, printed as integer part, a point, and exactly six
fractional digits. -/
def format6Nonneg {α : Type} [LinearOrderedField α] [FloorRing α] (x : α) : String :=
  let n : ℕ := (fieldRoundHalfEven (x * 1000000)).toNat
  String.mk (natDigits (n / 1000000 + 1) (n / 1000000) ++ ('.' :: sixDigits (n % 1000000)))

/-- Python `'{:.6f}'.format(x)`: sign, then the formatted magnitude. -/
def format6 {α : Type} [LinearOrderedField α] [FloorRing α] (x : α) : String :=
  if x < 0 then "-" ++ format6Nonneg (-x) else format6Nonneg x

/-- Embedding of `xyz2vertex` (src/simplify.py:175-183): divide each
coordinate by 1,000,000 and format an obj vertex record with six decimals. -/
def xyz2vertex {α : Type} [LinearOrderedField α] [FloorRing α] (x y z : α) : String :=
  "v " ++ format6 (x / 1000000) ++ " " ++ format6 (y / 1000000) ++ " " ++
    format6 (z / 1000000) ++ "\n"

/-- The vertex record written for one projected point:
`xyz2vertex( *geo2car(...) )`. -/
noncomputable def vertexOf (p : ℝ × ℝ × ℝ) : String :=
  xyz2vertex p.1 p.2.1 p.2.2

/-- Embedding of the export loop of `__main__` (src/simplify.py:353-372),
carrying the running index `i` of `enumerate(egm)`.  Per factor of
`factores_exageracion` it accumulates the lines of that factor's geoid file
and topography file.  Reading `topo[i]` past the end raises IndexError,
modelled as `none`. -/
noncomputable def exportLoopAux (topo : List ℝ) (factores_exageracion : List ℤ) :
    List (ℝ × ℝ × ℝ) → ℕ → Option (List (List String) × List (List String))
  | [], _ => some (factores_exageracion.map fun _ => [], factores_exageracion.map fun _ => [])
  | (lat, lon, ond) :: restEgm, i =>
    match topo[i]? with
    | none => none
    | some hort =>
      let helip := hort + ond
      match exportLoopAux topo factores_exageracion restEgm (i + 1) with
      | none => none
      | some (gs, ts) =>
        some
          (List.zipWith (fun (fe : ℤ) (g : List String) =>
              vertexOf (geo2car lon lat ond (fe : ℝ)) :: g) factores_exageracion gs,
           List.zipWith (fun (fe : ℤ) (t : List String) =>
              vertexOf (geo2car lon lat helip (fe : ℝ)) :: t) factores_exageracion ts)

/-- The export loop from index 0: per exaggeration factor, the geoid lines
and the topography lines, in input order. -/
noncomputable def exportLoop (egm : List (ℝ × ℝ × ℝ)) (topo : List ℝ)
    (factores_exageracion : List ℤ) : Option (List (List String) × List (List String)) :=
  exportLoopAux topo factores_exageracion egm 0

/-!  General lemmas about `everyNth` and flattened constant-width blocks. -/

theorem everyNthAux_drop {α : Type} (s : ℕ) :
    ∀ (l : List α) (c : ℕ), everyNthAux s c l = everyNthAux s 0 (l.drop c) := by
  intro l
  induction l with
  | nil => intro c; cases c <;> simp [everyNthAux]
  | cons x rest ih =>
    intro c
    cases c with
    | zero => simp
    | succ c2 => simpa [everyNthAux] using ih c2

theorem everyNth_nil {α : Type} (s : ℕ) : everyNth s ([] : List α) = [] := rfl

theorem everyNth_cons {α : Type} (s : ℕ) (x : α) (l : List α) :
    everyNth s (x :: l) = x :: everyNth s (l.drop (s - 1)) := by
  simp [everyNth, everyNthAux, everyNthAux_drop]

theorem everyNthAux_getElem? {α : Type} (s : ℕ) (hs : 1 ≤ s) :
    ∀ (l : List α) (c i : ℕ), (everyNthAux s c l)[i]? = l[c + i * s]? := by
  intro l
  induction l with
  | nil => intro c i; simp [everyNthAux]
  | cons x rest ih =>
    intro c i
    cases c with
    | zero =>
      cases i with
      | zero => simp [everyNthAux]
      | succ i2 =>
        have h1 : (everyNthAux s 0 (x :: rest))[i2 + 1]? = (everyNthAux s (s - 1) rest)[i2]? := by
          simp [everyNthAux]
        rw [h1, ih (s - 1) i2]
        have h4 : 1 ≤ (i2 + 1) * s := Nat.mul_pos (by omega) (by omega)
        obtain ⟨d, hd⟩ : ∃ d, (i2 + 1) * s = d + 1 := ⟨(i2 + 1) * s - 1, by omega⟩
        have h2 : s - 1 + i2 * s = d := by
          have h3 : (i2 + 1) * s = i2 * s + s := by ring
          omega
        rw [h2]
        simp [hd]
    | succ c2 =>
      have h1 : (everyNthAux s (c2 + 1) (x :: rest))[i]? = (everyNthAux s c2 rest)[i]? := by
        simp [everyNthAux]
      rw [h1, ih c2 i]
      simp [Nat.add_right_comm]

theorem everyNth_getElem? {α : Type} (s : ℕ) (hs : 1 ≤ s) (l : List α) (i : ℕ) :
    (everyNth s l)[i]? = l[i * s]? := by
  simpa using everyNthAux_getElem? s hs l 0 i

theorem everyNth_map {α β : Type} (s : ℕ) (g : α → β) :
    ∀ (l : List α) (c : ℕ), everyNthAux s c (l.map g) = (everyNthAux s c l).map g := by
  intro l
  induction l with
  | nil => intro c; simp [everyNthAux]
  | cons x rest ih =>
    intro c
    cases c with
    | zero => simp [everyNthAux, ih]
    | succ c2 => simp [everyNthAux, ih]

theorem everyNth_length {α : Type} (s : ℕ) (hs : 1 ≤ s) (l : List α) :
    (everyNth s l).length = (l.length + (s - 1)) / s := by
  have main : ∀ (fuel : ℕ) (l2 : List α), l2.length ≤ fuel →
      (everyNth s l2).length = (l2.length + (s - 1)) / s := by
    intro fuel
    induction fuel with
    | zero =>
      intro l2 hl
      have hnil : l2 = [] := List.length_eq_zero.mp (Nat.le_zero.mp hl)
      subst hnil
      simp [everyNth, everyNthAux, Nat.div_eq_of_lt (by omega : s - 1 < s)]
    | succ fuel2 ih =>
      intro l2 hl
      cases l2 with
      | nil => simp [everyNth, everyNthAux, Nat.div_eq_of_lt (by omega : s - 1 < s)]
      | cons x rest =>
        rw [everyNth_cons]
        have hrec := ih (rest.drop (s - 1)) (by simp at hl ⊢; omega)
        simp only [List.length_cons, List.length_drop] at hrec ⊢
        rw [hrec]
        rcases Nat.lt_or_ge rest.length s with hcase | hcase
        · have h1 : rest.length - (s - 1) = 0 := by omega
          rw [h1]
          have h2 : (0 + (s - 1)) / s = 0 := Nat.div_eq_of_lt (by omega)
          rw [h2]
          have h3 : (rest.length + 1 + (s - 1)) / s = 1 := by
            apply Nat.div_eq_of_lt_le <;> omega
          rw [h3]
        · have h1 : rest.length - (s - 1) + (s - 1) = rest.length := by omega
          rw [h1]
          have h2 : rest.length + 1 + (s - 1) = rest.length + s := by omega
          rw [h2, Nat.add_div_right _ (by omega : 0 < s)]
  exact main l.length l le_rfl

theorem everyNth_range (s : ℕ) (hs : 1 ≤ s) (n : ℕ) :
    everyNth s (List.range n) = (List.range ((n + (s - 1)) / s)).map (fun c => c * s) := by
  have hiff : ∀ i : ℕ, i < (n + (s - 1)) / s ↔ i * s < n := by
    intro i
    rw [Nat.lt_iff_add_one_le, Nat.le_div_iff_mul_le (by omega : 0 < s)]
    have h1 : (i + 1) * s = i * s + s := by ring
    rw [h1]
    omega
  apply List.ext_getElem?
  intro i
  rw [everyNth_getElem? s hs]
  rcases Nat.lt_or_ge i ((n + (s - 1)) / s) with hlt | hge
  · rw [List.getElem?_map, List.getElem?_range hlt, List.getElem?_range ((hiff i).mp hlt)]
    rfl
  · have h1 : n ≤ i * s := Nat.not_lt.mp (fun hc => absurd ((hiff i).mpr hc) (Nat.not_lt.mpr hge))
    rw [List.getElem?_eq_none (by simpa using h1),
      List.getElem?_eq_none (by simpa using hge)]

theorem flatten_const_length {α : Type} (k : ℕ) :
    ∀ (L : List (List α)), (∀ blk ∈ L, blk.length = k) → L.flatten.length = L.length * k := by
  intro L
  induction L with
  | nil => simp
  | cons blk rest ih =>
    intro hlen
    simp only [List.flatten_cons, List.length_append, List.length_cons]
    rw [ih (fun blk2 hb => hlen blk2 (List.mem_cons_of_mem _ hb)),
      hlen blk (List.mem_cons_self _ _)]
    ring

theorem flatten_const_getElem? {α : Type} (k : ℕ) (hk : 1 ≤ k) :
    ∀ (L : List (List α)), (∀ blk ∈ L, blk.length = k) → ∀ i, i < L.length * k →
      L.flatten[i]? = (L[i / k]?).bind fun blk => blk[i % k]? := by
  intro L
  induction L with
  | nil => intro hlen i hi; simp at hi
  | cons blk rest ih =>
    intro hlen i hi
    have hblk : blk.length = k := hlen blk (List.mem_cons_self _ _)
    simp only [List.flatten_cons]
    rcases Nat.lt_or_ge i k with hlt | hge
    · rw [List.getElem?_append, if_pos (by omega)]
      rw [Nat.div_eq_of_lt hlt, Nat.mod_eq_of_lt hlt]
      simp
    · obtain ⟨j, hj⟩ := Nat.exists_eq_add_of_le hge
      subst hj
      rw [List.getElem?_append, if_neg (by omega)]
      have h1 : k + j - blk.length = j := by omega
      rw [h1]
      have h2 : (k + j) / k = j / k + 1 := by
        rw [Nat.add_comm k j, Nat.add_div_right _ (by omega)]
      have h3 : (k + j) % k = j % k := by
        rw [Nat.add_comm k j, Nat.add_mod_right]
      rw [h2, h3]
      have h4 : j < rest.length * k := by
        simp only [List.length_cons] at hi
        have h5 : (rest.length + 1) * k = rest.length * k + k := by ring
        omega
      rw [ih (fun blk2 hb => hlen blk2 (List.mem_cons_of_mem _ hb)) j h4]
      simp

theorem rangeMapFlatten_succ {α : Type} (g : ℕ → List α) (n : ℕ) :
    ((List.range (n + 1)).map g).flatten = g 0 ++ ((List.range n).map fun b => g (b + 1)).flatten := by
  rw [List.range_succ_eq_map]
  simp only [List.map_cons, List.map_map, List.flatten_cons]
  rfl

theorem rangeMapFlatten_drop_blocks {α : Type} (k : ℕ) :
    ∀ (j n : ℕ) (g : ℕ → List α), (∀ b, (g b).length = k) → j ≤ n →
      (((List.range n).map g).flatten).drop (j * k) =
        ((List.range (n - j)).map fun b => g (j + b)).flatten := by
  intro j
  induction j with
  | zero => intro n g hlen hj; simp
  | succ j2 ih =>
    intro n g hlen hj
    obtain ⟨n2, hn⟩ : ∃ n2, n = n2 + 1 := ⟨n - 1, by omega⟩
    subst hn
    have h1 : (j2 + 1) * k = k + j2 * k := by ring
    rw [h1, ← List.drop_drop, rangeMapFlatten_succ]
    have hdl : List.drop k (g 0 ++ ((List.range n2).map fun b => g (b + 1)).flatten) =
        ((List.range n2).map fun b => g (b + 1)).flatten := by
      rw [← hlen 0]
      exact List.drop_left _ _
    rw [hdl, ih n2 (fun b => g (b + 1)) (fun b => hlen (b + 1)) (by omega)]
    have h3 : n2 + 1 - (j2 + 1) = n2 - j2 := by omega
    rw [h3]
    have h4 : ∀ b : ℕ, j2 + b + 1 = j2 + 1 + b := by omega
    simp only [h4]

theorem take_range_map {α : Type} (g : ℕ → α) (m n : ℕ) (h : m ≤ n) :
    ((List.range n).map g).take m = (List.range m).map g := by
  rw [← List.map_take, List.take_range]
  have h1 : m ⊓ n = m := Nat.min_eq_left h
  rw [h1]

/-!  Arithmetic helper lemmas for the stride computations. -/

theorem pyInt_natCast (k : ℕ) : pyInt (k : ℚ) = k := by
  have h1 : ¬ ((k : ℚ) < 0) := not_lt.mpr (by positivity)
  rw [pyInt, if_neg h1]
  exact Int.floor_natCast k

theorem floor_natCast_div_two (m : ℕ) : ⌊(m : ℚ) / 2⌋ = ((m / 2 : ℕ) : ℤ) := by
  rw [Int.floor_eq_iff]
  constructor
  · rw [le_div_iff₀ (by norm_num : (0:ℚ) < 2)]
    exact_mod_cast (by omega : m / 2 * 2 ≤ m)
  · rw [div_lt_iff₀ (by norm_num : (0:ℚ) < 2)]
    exact_mod_cast (by omega : m < (m / 2 + 1) * 2)

theorem ceilDiv_exact (w s : ℕ) (hs : 1 ≤ s) : (w * s + (s - 1)) / s = w := by
  obtain ⟨d, hd⟩ : ∃ d, s = d + 1 := ⟨s - 1, by omega⟩
  subst hd
  simp only [Nat.add_sub_cancel]
  have h1 : w * (d + 1) + d = d + (d + 1) * w := by ring
  rw [h1, Nat.add_mul_div_left _ _ (by omega : 0 < d + 1), Nat.div_eq_of_lt (by omega)]
  omega

theorem mul_div_exact (w s : ℕ) (hs : 1 ≤ s) : w * s / s = w := by
  apply Nat.div_eq_of_lt_le
  · exact le_rfl
  · have h1 : (w + 1) * s = w * s + s := by ring
    omega

theorem everyNth_map_eq {α β : Type} (s : ℕ) (g : α → β) (l : List α) :
    everyNth s (l.map g) = (everyNth s l).map g :=
  everyNth_map s g l 0

/-- The reordering `line[middle : -1] ++ line[ : middle]` of a full native
row of width `2*M + 1`, written as one indexed row: position `j` holds the
native value at column `M + j` (eastern half) or `j - M` (western half). -/
theorem etopoMerged_eq (f : ℕ → ℚ) (M : ℕ) :
    ((((List.range (2*M+1)).map f).drop M).dropLast ++ ((List.range (2*M+1)).map f).take M)
      = (List.range (2*M)).map (fun j => if j < M then f (M + j) else f (j - M)) := by
  have hlenL : ((List.range (2*M+1)).map f).length = 2*M+1 := by simp
  have hpart1 : ((((List.range (2*M+1)).map f).drop M).dropLast) =
      (((List.range (2*M+1)).map f).drop M).take M := by
    rw [List.dropLast_eq_take]
    congr 1
    rw [List.length_drop, hlenL]
    omega
  have hlen1 : ((((List.range (2*M+1)).map f).drop M).take M).length = M := by
    rw [List.length_take, List.length_drop, hlenL]
    exact Nat.min_eq_left (by omega)
  apply List.ext_getElem?
  intro i
  rw [hpart1, List.getElem?_append, hlen1]
  rcases Nat.lt_or_ge i M with hiM | hiM
  · rw [if_pos hiM]
    rw [List.getElem?_take, if_pos hiM, List.getElem?_drop]
    rw [List.getElem?_map, List.getElem?_range (by omega : M + i < 2*M+1)]
    rw [List.getElem?_map, List.getElem?_range (by omega : i < 2*M)]
    simp [if_pos hiM]
  · rw [if_neg (by omega : ¬ i < M)]
    rcases Nat.lt_or_ge i (2*M) with hi2M | hi2M
    · rw [List.getElem?_take, if_pos (by omega : i - M < M)]
      rw [List.getElem?_map, List.getElem?_range (by omega : i - M < 2*M+1)]
      rw [List.getElem?_map, List.getElem?_range (by omega : i < 2*M)]
      simp [if_neg (by omega : ¬ i < M)]
    · rw [List.getElem?_take, if_neg (by omega : ¬ i - M < M)]
      rw [List.getElem?_eq_none (by simp; omega)]

/-- `parse_line` of `simplifyETOPO` on a full native row of width `2*M+1`,
as one indexed list: the output column `c` holds `1000` times the native
value at column `M + c*s` or `c*s - M`. -/
theorem etopoParseLine_range (f : ℕ → ℚ) (M s : ℕ) (hs : 1 ≤ s) :
    etopoParseLine M s ((List.range (2*M+1)).map f) =
      (List.range ((2*M + (s-1))/s)).map
        (fun c => (if c*s < M then f (M + c*s) else f (c*s - M)) * 1000) := by
  unfold etopoParseLine
  rw [etopoMerged_eq]
  simp only [everyNth_map_eq, everyNth_range s hs (2*M), List.map_map]
  rfl

/-- Closed form of the band loop of `simplifyEGM08`: iteration `bo` keeps
every `k`-th row among the first `m - 1` rows of the band that starts at
input row `bo * (k*m)`; each iteration consumes exactly `k*m` rows. -/
theorem egmLoop_closed (k m r : ℕ) (hk : 1 ≤ k) (hm : 1 ≤ m) (hr : r = k*m - m + 1) :
    ∀ (B : ℕ) (rows : List (ℚ × ℚ × ℚ)),
      egmLoop k m r B rows =
        ((List.range B).map fun bo => everyNth k ((rows.drop (bo * (k*m))).take (m-1))).flatten := by
  intro B
  induction B with
  | zero => intro rows; simp [egmLoop]
  | succ B2 ih =>
    intro rows
    have hkm : m ≤ k * m := Nat.le_mul_of_pos_left m (by omega)
    have h1 : (rows.drop (m-1)).drop r = rows.drop (k*m) := by
      rw [List.drop_drop]
      have h0 : m - 1 + r = k * m := by omega
      rw [h0]
    simp only [egmLoop, h1, ih]
    rw [rangeMapFlatten_succ]
    congr 1
    · simp
    · have h2 : ∀ bo : ℕ, (List.drop (k*m) rows).drop (bo * (k*m)) = rows.drop ((bo + 1) * (k*m)) := by
        intro bo
        rw [List.drop_drop]
        have h3 : k*m + bo * (k*m) = (bo + 1) * (k*m) := by ring
        rw [h3]
      simp only [h2]

theorem etopo_detected_step_pos (n : ℕ) (h2n : 2 ≤ n) :
    0 < 60 / (((n : ℚ) - 1) / 360) := by
  have h1 : (0:ℚ) < (n : ℚ) - 1 := by
    have h2 : (2:ℚ) ≤ (n : ℚ) := by exact_mod_cast h2n
    linarith
  positivity

/-- C3.  For an elevation grid whose first row has `n ≥ 2` numeric fields
(detected native step `60 / ((n-1)/360)`) and whose native step divides the
target step exactly with quotient `rowStride = kt ≥ 1`, `simplifyETOPO`
keeps exactly every `kt`-th input row starting at row 0 (skipping the rows
in between entirely), maps each kept row `v` to the reordered row
`v[mid..n-2] ++ v[0..mid-1]` with `mid = (n-1)/2` (dropping the very last
native value `v[n-1]`), multiplies every value by 1000, keeps every `kt`-th
value of the reordered row starting at index 0, and returns the kept rows
flattened in row order (this is exactly `etopoParseLine mid kt` applied to
`everyNth kt` of the rows). -/
theorem etopo_row_decimation_spec (pm : ℚ) (r1 : List ℚ) (rest : List (List ℚ)) (n kt : ℕ)
    (hn : r1.length = n) (h2n : 2 ≤ n) (hkt : 1 ≤ kt)
    (hdiv : pm = kt * (60 / (((n : ℚ) - 1) / 360))) :
    simplifyETOPO pm (PyFile.mk (r1 :: rest) 0) =
      some (((everyNth kt (r1 :: rest)).map (etopoParseLine ((n - 1) / 2) kt)).flatten) := by
  have hpf : 0 < 60 / (((n : ℚ) - 1) / 360) := etopo_detected_step_pos n h2n
  have hn1 : (0:ℚ) < (n : ℚ) - 1 := by
    have h2 : (2:ℚ) ≤ (n : ℚ) := by exact_mod_cast h2n
    linarith
  have hsalto : pyInt (pm / (60 / (((n : ℚ) - 1) / 360))) = (kt : ℤ) := by
    rw [hdiv, mul_div_cancel_right₀ _ (ne_of_gt hpf)]
    exact pyInt_natCast kt
  have hmiddle : (⌊360 * (60 / (60 / (((n : ℚ) - 1) / 360))) / 2⌋ : ℤ) = (((n - 1) / 2 : ℕ) : ℤ) := by
    have h1 : 360 * ((60:ℚ) / (60 / (((n : ℚ) - 1) / 360))) / 2 = ((n : ℚ) - 1) / 2 := by
      field_simp
      ring
    have h2 : ((n : ℚ) - 1) = (((n - 1 : ℕ)) : ℚ) := by
      push_cast [Nat.cast_sub (by omega : 1 ≤ n)]
      ring
    rw [h1, h2, floor_natCast_div_two]
  unfold simplifyETOPO get_paso_malla_etopo
  simp only [PyFile.rest, List.drop_zero]
  rw [hn]
  rw [hsalto, hmiddle]
  rw [if_neg (by exact_mod_cast (by omega : ¬ ((kt:ℤ) ≤ 0)))]
  rw [Int.toNat_natCast, Int.toNat_natCast]

/-- Witness for C3 at a concrete grid: two rows of three fields, native
step 10800 arc-minutes, target step 10800 (stride 1). -/
theorem etopo_row_decimation_spec_witness :
    simplifyETOPO 10800 (PyFile.mk [[1,2,3],[4,5,6]] 0) =
      some (((everyNth 1 [[1,2,3],[4,5,6]]).map (etopoParseLine ((3 - 1) / 2) 1)).flatten) :=
  etopo_row_decimation_spec 10800 [1,2,3] [[4,5,6]] 3 1 rfl (by norm_num) (by norm_num)
    (by norm_num)

/-- C4.  For an undulation grid whose detected native step `pf` (rounded
longitude delta of the first two rows) exactly divides the target step with
quotient `colStride = ke ≥ 1`, and whose band height `m = 360*60/pf` is a
positive integer, `simplifyEGM08` performs exactly `floor(180*60/pm) + 1`
band iterations; iteration `bo` parses every `ke`-th row among the first
`m - 1` rows of the band starting at input row `bo * (ke*m)` and appends
the triples to the output, then skips `ke*m - m + 1` further rows, so each
iteration consumes exactly `ke*m` input rows and the cursor lands on the
first row of the next retained band. -/
theorem egm_band_decimation_spec (pm pf : ℚ) (r1 r2 : ℚ × ℚ × ℚ) (rest : List (ℚ × ℚ × ℚ))
    (ke m : ℕ) (hke : 1 ≤ ke) (hm : 1 ≤ m)
    (hpf : pyRound2 (|r2.2.1 - r1.2.1| * 60) = pf)
    (hdiv : pm = ke * pf)
    (hband : (m : ℚ) = 360 * 60 / pf) :
    simplifyEGM08 pm (PyFile.mk (r1 :: r2 :: rest) 0) =
      some (((List.range ((⌊(180 : ℚ) * 60 / pm⌋ + 1).toNat)).map fun bo =>
        everyNth ke (((r1 :: r2 :: rest).drop (bo * (ke * m))).take (m - 1))).flatten) := by
  have hpf0 : 0 < pf := by
    have h1 : (0:ℚ) < (m:ℚ) := by
      have h2 : (1:ℚ) ≤ (m:ℚ) := by exact_mod_cast hm
      linarith
    rw [hband] at h1
    rcases div_pos_iff.mp h1 with ⟨_, hp⟩ | ⟨hq, _⟩
    · exact hp
    · norm_num at hq
  have hsalto : pyInt (pm / pf) = (ke : ℤ) := by
    rw [hdiv, mul_div_cancel_right₀ _ (ne_of_gt hpf0)]
    exact pyInt_natCast ke
  have hsl : pyInt (360 * 60 / pf) = (m : ℤ) := by
    rw [← hband]
    exact pyInt_natCast m
  have hkm : m ≤ ke * m := Nat.le_mul_of_pos_left m (by omega)
  have hrest : ((ke:ℤ) * (m:ℤ) - (m:ℤ) + 1).toNat = ke * m - m + 1 := by
    have h4 : ((ke:ℤ) * (m:ℤ) - (m:ℤ) + 1) = ((ke * m - m + 1 : ℕ) : ℤ) := by
      push_cast [Nat.cast_sub hkm]
      ring
    rw [h4, Int.toNat_natCast]
  have hfin : (180 : ℚ) * (60 / pm) = 180 * 60 / pm := by ring
  unfold simplifyEGM08 get_paso_malla_egm
  simp only [PyFile.rest, List.drop_zero]
  rw [hpf, hsalto, hsl]
  rw [if_neg (by push_neg; constructor <;> exact_mod_cast (by omega) )]
  rw [Int.toNat_natCast, Int.toNat_natCast, hrest, hfin]
  rw [egmLoop_closed ke m (ke * m - m + 1) hke hm rfl]

/-- Witness for C4 at a concrete grid: native step 10800, target step
10800 (stride 1, band height 2), four input rows. -/
theorem egm_band_decimation_spec_witness :
    simplifyEGM08 10800 (PyFile.mk [(90,0,7),(90,180,8),(-90,0,9),(-90,180,10)] 0) =
      some (((List.range ((⌊(180 : ℚ) * 60 / 10800⌋ + 1).toNat)).map fun bo =>
        everyNth 1 (([((90:ℚ),(0:ℚ),(7:ℚ)),(90,180,8),(-90,0,9),(-90,180,10)].drop (bo * (1 * 2))).take (2 - 1))).flatten) :=
  egm_band_decimation_spec 10800 10800 (90,0,7) (90,180,8) [(-90,0,9),(-90,180,10)] 1 2
    (by norm_num) (by norm_num)
    (by norm_num [pyRound2, roundHalfEven, Int.fract])
    (by norm_num) (by norm_num)

/-- C5.  Step detection: for an elevation grid whose next row has `n ≥ 2`
numeric fields the detector returns exactly `60 / ((n-1)/360)` and resets
the read cursor to the start of the input; for an undulation grid with at
least two rows ahead whose longitudes differ by `Δ`, the detector returns
exactly `round(|Δ| * 60, 2)` and resets the read cursor to the start. -/
theorem step_detection_spec :
    (∀ (rows : List (List ℚ)) (p : ℕ) (r1 : List ℚ) (tail : List (List ℚ)) (n : ℕ),
      rows.drop p = r1 :: tail → r1.length = n → 2 ≤ n →
      get_paso_malla_etopo (PyFile.mk rows p) =
        some (60 / (((n : ℚ) - 1) / 360), PyFile.mk rows 0)) ∧
    (∀ (rows : List (ℚ × ℚ × ℚ)) (p : ℕ) (r1 r2 : ℚ × ℚ × ℚ) (tail : List (ℚ × ℚ × ℚ)),
      rows.drop p = r1 :: r2 :: tail →
      get_paso_malla_egm (PyFile.mk rows p) =
        some (pyRound2 (|r2.2.1 - r1.2.1| * 60), PyFile.mk rows 0)) := by
  constructor
  · intro rows p r1 tail n hdrop hn h2n
    unfold get_paso_malla_etopo
    simp only [PyFile.rest]
    rw [hdrop]
    simp [hn]
  · intro rows p r1 r2 tail hdrop
    unfold get_paso_malla_egm
    simp only [PyFile.rest]
    rw [hdrop]

/-- Witness for C5: detection on concrete two-row files, the elevation one
read from cursor position 1. -/
theorem step_detection_spec_witness :
    get_paso_malla_etopo (PyFile.mk [[1,2,3],[9,9,9]] 1) =
      some (60 / (((3 : ℚ) - 1) / 360), PyFile.mk [[1,2,3],[9,9,9]] 0) ∧
    get_paso_malla_egm (PyFile.mk [(90,0,7),(90,180,8)] 0) =
      some (pyRound2 (|(180 : ℚ) - 0| * 60), PyFile.mk [(90,0,7),(90,180,8)] 0) :=
  ⟨step_detection_spec.1 [[1,2,3],[9,9,9]] 1 [9,9,9] [] 3 rfl rfl (by norm_num),
   step_detection_spec.2 [(90,0,7),(90,180,8)] 0 (90,0,7) (90,180,8) [] rfl⟩

/-- Modelled from the spec (claim C6): `toCartesian` exactly as the spec
writes it, with `b = a(1−f)` and first eccentricity `e = sqrt(a²−b²)/a`,
`h = heightMeters * exaggeration`, `v = a / sqrt(1 − e²·sin²(lat))`. -/
noncomputable def toCartesianSpec (lonDeg latDeg hMeters exagg : ℝ) : ℝ × ℝ × ℝ :=
  let a : ℝ := 6378137
  let f : ℝ := 1 / 298.257223563
  let b : ℝ := a * (1 - f)
  let e : ℝ := Real.sqrt (a ^ 2 - b ^ 2) / a
  let h : ℝ := hMeters * exagg
  let lat : ℝ := latDeg * Real.pi / 180
  let lon : ℝ := lonDeg * Real.pi / 180
  let v : ℝ := a / Real.sqrt (1 - e ^ 2 * Real.sin lat ^ 2)
  ((v + h) * Real.cos lat * Real.cos lon,
   (v + h) * Real.cos lat * Real.sin lon,
   (b ^ 2 / a ^ 2 * v + h) * Real.sin lat)

/-- C6.  `geo2car` returns exactly the WGS84 geocentric point prescribed by
the spec formulas (a pure function of its four numeric arguments): the
code's `b = a - a*f` equals the spec's `b = a(1−f)`, and every other term
coincides literally. -/
theorem geo2car_matches_spec_formula (lon lat h fe : ℝ) :
    geo2car lon lat h fe = toCartesianSpec lon lat h fe := by
  have hb : WGS84.b = 6378137 * (1 - 1 / 298.257223563) := by
    rw [WGS84.b, WGS84.a, WGS84.f]
    norm_num
  simp only [geo2car, toCartesianSpec, geo2carDenom, WGS84.pe, WGS84.el, WGS84.a, hb]

/-- C7.  The exaggeration factor multiplies the height before any other
use: `geo2car lon lat h k = geo2car lon lat (k*h) 1`, and each coordinate
is the height-free base point plus `h*k` times a factor depending only on
`lon` and `lat` — the height contribution is linear in `k`. -/
theorem exaggeration_linearity (lon lat h k : ℝ) :
    geo2car lon lat h k = geo2car lon lat (k * h) 1 ∧
    (geo2car lon lat h k).1 = (geo2car lon lat 0 1).1 +
      h * k * (Real.cos (lat * Real.pi / 180) * Real.cos (lon * Real.pi / 180)) ∧
    (geo2car lon lat h k).2.1 = (geo2car lon lat 0 1).2.1 +
      h * k * (Real.cos (lat * Real.pi / 180) * Real.sin (lon * Real.pi / 180)) ∧
    (geo2car lon lat h k).2.2 = (geo2car lon lat 0 1).2.2 +
      h * k * Real.sin (lat * Real.pi / 180) := by
  simp only [geo2car, Prod.mk.injEq]
  refine ⟨⟨by ring, by ring, by ring⟩, by ring, by ring, by ring⟩

/-- C10.  For every real latitude the radicand `1 - pe² · sin²(lat)` inside
`geo2car` is strictly positive (the WGS84 constants give `pe² < 1` and
`sin² ≤ 1`), so the square root is strictly positive and the division
`a / denom` never divides by zero: `geo2car` is total. -/
theorem geo2car_denom_pos (lat_ : ℝ) :
    0 < 1 - WGS84.pe ^ 2 * Real.sin lat_ ^ 2 ∧ 0 < geo2carDenom lat_ := by
  have ha : (0:ℝ) < WGS84.a := by rw [WGS84.a]; norm_num
  have hb0 : 0 < WGS84.b := by rw [WGS84.b, WGS84.a, WGS84.f]; norm_num
  have hba : WGS84.b < WGS84.a := by rw [WGS84.b, WGS84.a, WGS84.f]; norm_num
  have hsq : 0 ≤ WGS84.a ^ 2 - WGS84.b ^ 2 := by nlinarith
  have hpe2 : WGS84.pe ^ 2 = (WGS84.a ^ 2 - WGS84.b ^ 2) / WGS84.a ^ 2 := by
    rw [WGS84.pe, div_pow, WGS84.el, Real.sq_sqrt hsq]
  have hpe2lt : WGS84.pe ^ 2 < 1 := by
    rw [hpe2, div_lt_one (by positivity)]
    nlinarith
  have hsin : Real.sin lat_ ^ 2 ≤ 1 := Real.sin_sq_le_one lat_
  have h1 : WGS84.pe ^ 2 * Real.sin lat_ ^ 2 ≤ WGS84.pe ^ 2 := by
    nlinarith [sq_nonneg WGS84.pe, sq_nonneg (Real.sin lat_)]
  have hrad : 0 < 1 - WGS84.pe ^ 2 * Real.sin lat_ ^ 2 := by nlinarith
  refine ⟨hrad, ?_⟩
  rw [geo2carDenom]
  exact Real.sqrt_pos.mpr hrad

theorem string_mk_append (l1 l2 : List Char) :
    String.mk l1 ++ String.mk l2 = String.mk (l1 ++ l2) := rfl

theorem sixDigits_length (n : ℕ) : (sixDigits n).length = 6 := by
  simp [sixDigits]

theorem format6Nonneg_decomp (x : ℚ) :
    ∃ pre post : String, format6Nonneg x = pre ++ "." ++ post ∧ post.length = 6 := by
  refine ⟨String.mk (natDigits ((fieldRoundHalfEven (x * 1000000)).toNat / 1000000 + 1)
      ((fieldRoundHalfEven (x * 1000000)).toNat / 1000000)),
    String.mk (sixDigits ((fieldRoundHalfEven (x * 1000000)).toNat % 1000000)), ?_, ?_⟩
  · have hdot : ("." : String) = String.mk ['.'] := rfl
    rw [hdot, string_mk_append, string_mk_append]
    unfold format6Nonneg
    exact congrArg String.mk (by simp)
  · show (String.mk _).length = 6
    simp [String.length, sixDigits]

theorem format6_decomp (x : ℚ) :
    ∃ pre post : String, format6 x = pre ++ "." ++ post ∧ post.length = 6 := by
  unfold format6
  rcases lt_or_ge x 0 with hx | hx
  · rw [if_pos hx]
    obtain ⟨pre, post, heq, hlen⟩ := format6Nonneg_decomp (-x)
    exact ⟨"-" ++ pre, post, by rw [heq]; rw [← String.append_assoc, ← String.append_assoc], hlen⟩
  · rw [if_neg (not_lt.mpr hx)]
    exact format6Nonneg_decomp x

/-- C9.  `xyz2vertex` divides each coordinate by 1,000,000 and returns one
vertex record `"v X Y Z"` whose coordinates are rendered with exactly six
decimal digits (a pure string function); in particular
`xyz2vertex 1000000 2000000 3000000` is the record of the scaled point
`(1.000000, 2.000000, 3.000000)`. -/
theorem vertex_formatting_spec :
    (∀ x y z : ℚ, xyz2vertex x y z =
      "v " ++ format6 (x / 1000000) ++ " " ++ format6 (y / 1000000) ++ " " ++
        format6 (z / 1000000) ++ "\n") ∧
    (∀ x : ℚ, ∃ pre post : String, format6 x = pre ++ "." ++ post ∧ post.length = 6) ∧
    xyz2vertex (1000000 : ℚ) 2000000 3000000 = "v 1.000000 2.000000 3.000000\n" := by
  refine ⟨fun x y z => rfl, format6_decomp, ?_⟩
  norm_num [xyz2vertex, format6, format6Nonneg, fieldRoundHalfEven, Int.fract]
  decide

/-- The geoid lines the export loop writes for one factor: one projected
vertex per undulation sample, in input order. -/
noncomputable def expectedGeoLines (egm : List (ℝ × ℝ × ℝ)) (fe : ℤ) : List String :=
  egm.map fun row => vertexOf (geo2car row.2.1 row.1 row.2.2 (fe : ℝ))

/-- The topography lines the export loop writes for one factor: one vertex
per sample, at the ellipsoidal height `topo[i] + ond`. -/
noncomputable def expectedTopoLines (egm : List (ℝ × ℝ × ℝ)) (topo : List ℝ) (start : ℕ)
    (fe : ℤ) : List String :=
  (egm.zip (topo.drop start)).map fun pr =>
    vertexOf (geo2car pr.1.2.1 pr.1.1 (pr.2 + pr.1.2.2) (fe : ℝ))

theorem exportLoopAux_closed (topo : List ℝ) (fes : List ℤ) :
    ∀ (egm : List (ℝ × ℝ × ℝ)) (start : ℕ), start + egm.length ≤ topo.length →
      exportLoopAux topo fes egm start =
        some (fes.map (expectedGeoLines egm),
          fes.map fun fe => expectedTopoLines egm topo start fe) := by
  intro egm
  induction egm with
  | nil =>
    intro start hle
    have h1 : (fes.map fun _ => ([] : List String)) = fes.map (expectedGeoLines []) :=
      List.map_congr_left fun fe _ => by simp [expectedGeoLines]
    have h2 : (fes.map fun _ => ([] : List String)) =
        fes.map fun fe => expectedTopoLines [] topo start fe :=
      List.map_congr_left fun fe _ => by simp [expectedTopoLines]
    simp only [exportLoopAux]
    rw [← h1, ← h2]
  | cons row rest2 ih =>
    obtain ⟨lat, lon, ond⟩ := row
    intro start hle
    have hstart : start < topo.length := by simp at hle; omega
    have hrec := ih (start + 1) (by simp at hle ⊢; omega)
    have hdrop : topo.drop start = topo[start] :: topo.drop (start + 1) :=
      (List.getElem_cons_drop topo start hstart).symm
    have hgeo : ∀ fe : ℤ, expectedGeoLines ((lat, lon, ond) :: rest2) fe =
        vertexOf (geo2car lon lat ond (fe : ℝ)) :: expectedGeoLines rest2 fe := by
      intro fe
      simp [expectedGeoLines]
    have htopo : ∀ fe : ℤ, expectedTopoLines ((lat, lon, ond) :: rest2) topo start fe =
        vertexOf (geo2car lon lat (topo[start] + ond) (fe : ℝ)) ::
          expectedTopoLines rest2 topo (start + 1) fe := by
      intro fe
      rw [expectedTopoLines, hdrop, List.zip_cons_cons, List.map_cons]
      rfl
    simp only [exportLoopAux, List.getElem?_eq_getElem hstart, hrec]
    have hz1 : List.zipWith (fun (fe : ℤ) (g : List String) => vertexOf (geo2car lon lat ond (fe : ℝ)) :: g) fes
        (fes.map (expectedGeoLines rest2)) =
        fes.map fun (fe : ℤ) => vertexOf (geo2car lon lat ond (fe : ℝ)) :: expectedGeoLines rest2 fe := by
      rw [List.zipWith_map_right]
      exact List.zipWith_same _ fes
    have hz2 : List.zipWith
        (fun (fe : ℤ) (t : List String) => vertexOf (geo2car lon lat (topo[start] + ond) (fe : ℝ)) :: t) fes
        (fes.map fun fe => expectedTopoLines rest2 topo (start + 1) fe) =
        fes.map fun (fe : ℤ) => vertexOf (geo2car lon lat (topo[start] + ond) (fe : ℝ)) ::
          expectedTopoLines rest2 topo (start + 1) fe := by
      rw [List.zipWith_map_right]
      exact List.zipWith_same _ fes
    rw [hz1, hz2]
    have hm1 : fes.map (expectedGeoLines ((lat, lon, ond) :: rest2)) =
        fes.map fun (fe : ℤ) => vertexOf (geo2car lon lat ond (fe : ℝ)) :: expectedGeoLines rest2 fe :=
      List.map_congr_left fun fe _ => hgeo fe
    have hm2 : (fes.map fun fe => expectedTopoLines ((lat, lon, ond) :: rest2) topo start fe) =
        fes.map fun (fe : ℤ) => vertexOf (geo2car lon lat (topo[start] + ond) (fe : ℝ)) ::
          expectedTopoLines rest2 topo (start + 1) fe :=
      List.map_congr_left fun fe _ => htopo fe
    rw [hm1, hm2]

theorem exportLoopAux_congr_topo (fes : List ℤ) :
    ∀ (egm : List (ℝ × ℝ × ℝ)) (start : ℕ) (topo1 topo2 : List ℝ),
      (∀ j, j < egm.length → topo1[start + j]? = topo2[start + j]?) →
      exportLoopAux topo1 fes egm start = exportLoopAux topo2 fes egm start := by
  intro egm
  induction egm with
  | nil => intro start topo1 topo2 hsame; rfl
  | cons row rest2 ih =>
    obtain ⟨lat, lon, ond⟩ := row
    intro start topo1 topo2 hsame
    have h0 : topo1[start]? = topo2[start]? := by
      have h1 := hsame 0 (by simp)
      simpa using h1
    have hrest := ih (start + 1) topo1 topo2 (by
      intro j hj
      have h2 := hsame (j + 1) (by simp; omega)
      have h3 : start + (j + 1) = start + 1 + j := by omega
      rwa [h3] at h2)
    simp only [exportLoopAux, h0, hrest]

theorem exportLoopAux_none (topo : List ℝ) (fes : List ℤ) :
    ∀ (egm : List (ℝ × ℝ × ℝ)) (start : ℕ), start ≤ topo.length →
      topo.length < start + egm.length → exportLoopAux topo fes egm start = none := by
  intro egm
  induction egm with
  | nil => intro start h1 h2; simp at h2; omega
  | cons row rest2 ih =>
    obtain ⟨lat, lon, ond⟩ := row
    intro start h1 h2
    rcases Nat.lt_or_ge start topo.length with hlt | hge
    · have hrec := ih (start + 1) (by omega) (by simp at h2 ⊢; omega)
      simp only [exportLoopAux, hrec]
      cases h3 : topo[start]? <;> simp
    · have h3 : topo[start]? = none := List.getElem?_eq_none hge
      simp [exportLoopAux, h3]

theorem zip_getElem?_of {α β : Type} (l1 : List α) (l2 : List β) (i : ℕ) (x : α) (y : β)
    (h1 : l1[i]? = some x) (h2 : l2[i]? = some y) : (l1.zip l2)[i]? = some (x, y) := by
  induction l1 generalizing l2 i with
  | nil => simp at h1
  | cons a as ih =>
    cases l2 with
    | nil => simp at h2
    | cons b bs =>
      cases i with
      | zero =>
        simp at h1 h2
        simp [h1, h2]
      | succ i2 =>
        simp at h1 h2
        rw [List.zip_cons_cons]
        simpa using ih bs i2 h1 h2

/-- C2.  Given decimated sequences of equal length, the export loop
succeeds and, for every index `i` and every requested exaggeration factor
`fe`, writes exactly one geoid vertex record obtained by projecting
`(lon, lat, ond, fe)` and exactly one topography vertex record obtained by
projecting `(lon, lat, helip, fe)` with `helip = topo[i] + ond`, in
input-index order, into that factor's two output files. -/
theorem exportLoop_pairing_spec (egm : List (ℝ × ℝ × ℝ)) (topo : List ℝ) (fes : List ℤ)
    (hlen : egm.length = topo.length) :
    ∃ gs ts, exportLoop egm topo fes = some (gs, ts) ∧
      gs.length = fes.length ∧ ts.length = fes.length ∧
      ∀ (idx : ℕ) (fe : ℤ) (g t : List String), fes[idx]? = some fe → gs[idx]? = some g → ts[idx]? = some t →
        g.length = egm.length ∧ t.length = egm.length ∧
        ∀ (i : ℕ) (lat lon ond hort : ℝ), egm[i]? = some (lat, lon, ond) → topo[i]? = some hort →
          g[i]? = some (vertexOf (geo2car lon lat ond (fe : ℝ))) ∧
          t[i]? = some (vertexOf (geo2car lon lat (hort + ond) (fe : ℝ))) := by
  have hclosed := exportLoopAux_closed topo fes egm 0 (by omega)
  refine ⟨fes.map (expectedGeoLines egm), fes.map fun fe => expectedTopoLines egm topo 0 fe,
    hclosed, by simp, by simp, ?_⟩
  intro idx fe g t hfe hg ht
  rw [List.getElem?_map, hfe] at hg ht
  have hg2 : g = expectedGeoLines egm fe := by
    simpa using hg.symm
  have ht2 : t = expectedTopoLines egm topo 0 fe := by
    simpa using ht.symm
  subst hg2 ht2
  refine ⟨by simp [expectedGeoLines], ?_, ?_⟩
  · simp [expectedTopoLines, List.length_zip]
    omega
  · intro i lat lon ond hort hegm htopo
    constructor
    · rw [expectedGeoLines, List.getElem?_map, hegm]
      rfl
    · rw [expectedTopoLines, List.getElem?_map, List.drop_zero,
        zip_getElem?_of egm topo i (lat, lon, ond) hort hegm htopo]
      rfl

/-- Witness for C2 at one sample, one factor. -/
theorem exportLoop_pairing_spec_witness :
    ∃ gs ts, exportLoop [((0:ℝ), (0:ℝ), (0:ℝ))] [(0:ℝ)] [(1:ℤ)] = some (gs, ts) ∧
      gs.length = [(1:ℤ)].length ∧ ts.length = [(1:ℤ)].length ∧
      ∀ (idx : ℕ) (fe : ℤ) (g t : List String), [(1:ℤ)][idx]? = some fe →
        gs[idx]? = some g → ts[idx]? = some t →
        g.length = [((0:ℝ), (0:ℝ), (0:ℝ))].length ∧ t.length = [((0:ℝ), (0:ℝ), (0:ℝ))].length ∧
        ∀ (i : ℕ) (lat lon ond hort : ℝ), [((0:ℝ), (0:ℝ), (0:ℝ))][i]? = some (lat, lon, ond) →
          [(0:ℝ)][i]? = some hort →
          g[i]? = some (vertexOf (geo2car lon lat ond (fe : ℝ))) ∧
          t[i]? = some (vertexOf (geo2car lon lat (hort + ond) (fe : ℝ))) :=
  exportLoop_pairing_spec [(0, 0, 0)] [0] [1] rfl

/-- C8.  The export loop performs no length check: when the decimated
elevation sequence is shorter than the undulation sequence it hits the
missing index `len(topo)` and faults (`none`); when it is at least as
long, the loop completes silently, and it consumes only the first
`len(egm)` elements of `topo` — no alignment diagnostic in either case. -/
theorem export_loop_no_length_check (egm : List (ℝ × ℝ × ℝ)) (topo : List ℝ) (fes : List ℤ) :
    (topo.length < egm.length → exportLoop egm topo fes = none) ∧
    (egm.length ≤ topo.length → ∃ result, exportLoop egm topo fes = some result) ∧
    exportLoop egm topo fes = exportLoop egm (topo.take egm.length) fes := by
  refine ⟨?_, ?_, ?_⟩
  · intro hshort
    exact exportLoopAux_none topo fes egm 0 (by omega) (by omega)
  · intro hlong
    exact ⟨_, exportLoopAux_closed topo fes egm 0 (by omega)⟩
  · apply exportLoopAux_congr_topo
    intro j hj
    rw [List.getElem?_take, if_pos (by omega)]

theorem rangeMap_succ {α : Type} (g : ℕ → α) (n : ℕ) :
    (List.range (n+1)).map g = g 0 :: (List.range n).map fun r => g (r+1) := by
  rw [List.range_succ_eq_map, List.map_cons, List.map_map]
  rfl

/-- A well-formed global elevation grid: `numRows` rows of `numCols` numeric
fields, the value at row `r`, native column `j` being `E r j`. -/
def etopoGridRows (E : ℕ → ℕ → ℚ) (numRows numCols : ℕ) : List (List ℚ) :=
  (List.range numRows).map fun r => (List.range numCols).map fun j => E r j

/-- A well-formed global undulation grid at native step `paso` arc-minutes:
`numBands` latitude bands (latitudes `90 - bnd*paso/60`) of `numCols` rows
each (longitudes `j*paso/60`), undulation `U bnd j`. -/
def egmGridRows (U : ℕ → ℕ → ℚ) (paso : ℚ) (numBands numCols : ℕ) : List (ℚ × ℚ × ℚ) :=
  ((List.range numBands).map fun (bnd : ℕ) =>
    (List.range numCols).map fun (j : ℕ) =>
      ((90 : ℚ) - (bnd : ℚ) * paso / 60, (j : ℚ) * paso / 60, U bnd j)).flatten

theorem etopoGrid_decimated (H kt : ℕ) (E : ℕ → ℕ → ℚ) (hH : 1 ≤ H) (hkt : 1 ≤ kt) :
    simplifyETOPO (10800 / (H : ℚ)) (PyFile.mk (etopoGridRows E (H*kt+1) (2*H*kt+1)) 0) =
      some (((List.range (H+1)).map fun r =>
        (List.range (2*H)).map fun c =>
          (if c * kt < H * kt then E (r * kt) (H * kt + c * kt)
           else E (r * kt) (c * kt - H * kt)) * 1000).flatten) := by
  have hHQ : ((H : ℚ)) ≠ 0 := by positivity
  have hktQ : ((kt : ℚ)) ≠ 0 := by positivity
  have hdiv : (10800 : ℚ)/(H:ℚ) = kt * (60 / ((((2*H*kt+1 : ℕ) : ℚ) - 1)/360)) := by
    push_cast
    have h1 : (2*(H:ℚ)*(kt:ℚ) + 1 - 1) = 2*(H:ℚ)*kt := by ring
    rw [h1]
    field_simp
    ring
  have hrows : etopoGridRows E (H*kt+1) (2*H*kt+1) =
      ((List.range (2*H*kt+1)).map fun j => E 0 j) ::
        ((List.range (H*kt)).map fun r => (List.range (2*H*kt+1)).map fun j => E (r+1) j) := by
    rw [etopoGridRows, rangeMap_succ]
  rw [hrows]
  rw [etopo_row_decimation_spec (10800 / (H : ℚ)) _ _ (2*H*kt+1) kt (by simp)
    (by
      have h3 : 0 < H * kt := Nat.mul_pos (by omega) (by omega)
      have h4 : 2*H*kt = 2*(H*kt) := by ring
      omega) hkt hdiv]
  rw [← hrows]
  have hmid : (2*H*kt+1-1)/2 = H*kt := by
    have h1 : 2*H*kt = 2*(H*kt) := by ring
    omega
  rw [hmid]
  have hkept : everyNth kt (etopoGridRows E (H*kt+1) (2*H*kt+1)) =
      (List.range (H+1)).map fun r => (List.range (2*H*kt+1)).map fun j => E (r*kt) j := by
    rw [etopoGridRows, everyNth_map_eq, everyNth_range kt hkt, List.map_map]
    have hcount : (H*kt+1 + (kt-1))/kt = H+1 := by
      have h1 : H*kt+1+(kt-1) = (H+1)*kt := by
        have h2 : (H+1)*kt = H*kt + kt := by ring
        omega
      rw [h1, mul_div_exact _ _ hkt]
    rw [hcount]
    rfl
  rw [hkept, List.map_map]
  have hrow : ∀ r : ℕ, (etopoParseLine (H*kt) kt ∘
      fun r => (List.range (2*H*kt+1)).map fun j => E (r*kt) j) r =
      (List.range (2*H)).map fun c =>
        (if c * kt < H * kt then E (r * kt) (H * kt + c * kt)
         else E (r * kt) (c * kt - H * kt)) * 1000 := by
    intro r
    show etopoParseLine (H*kt) kt ((List.range (2*H*kt+1)).map fun j => E (r*kt) j) = _
    have h1 : 2*H*kt+1 = 2*(H*kt)+1 := by ring
    rw [h1, etopoParseLine_range (fun j => E (r*kt) j) (H*kt) kt hkt]
    have hcount : (2*(H*kt) + (kt-1))/kt = 2*H := by
      have h2 : 2*(H*kt) = (2*H)*kt := by ring
      rw [h2, ceilDiv_exact _ _ hkt]
    rw [hcount]
  rw [List.map_congr_left fun r _ => hrow r]

/-- Closed form of `simplifyEGM08` on a well-formed global undulation grid
whose native step `paso = 21600/(2*H*ke)` divides the target step
`10800/H` with column stride `ke ≥ 2`: `H+1` retained bands of `2*H`
samples each, band `bo` drawn from input band `bo*ke`, column `c` from
input row `c*ke` of that band. -/
theorem egmGrid_decimated (H ke : ℕ) (U : ℕ → ℕ → ℚ) (paso : ℚ) (hH : 1 ≤ H) (hke : 2 ≤ ke)
    (hpaso : paso = 21600 / (2 * (H:ℚ) * ke))
    (hrnd : pyRound2 paso = paso) :
    simplifyEGM08 (10800 / (H : ℚ)) (PyFile.mk (egmGridRows U paso (H*ke+1) (2*H*ke)) 0) =
      some (((List.range (H+1)).map fun bo =>
        (List.range (2*H)).map fun c =>
          ((90 : ℚ) - ((bo*ke : ℕ) : ℚ) * paso / 60, ((c*ke : ℕ) : ℚ) * paso / 60,
           U (bo*ke) (c*ke))).flatten) := by
  have hHQ : ((H : ℚ)) ≠ 0 := Nat.cast_ne_zero.mpr (by omega)
  have hkeQ : ((ke : ℚ)) ≠ 0 := Nat.cast_ne_zero.mpr (by omega)
  have hpfe0 : 0 < paso := by
    rw [hpaso]
    have hH2 : (0:ℚ) < (H:ℚ) := by exact_mod_cast hH
    have hke2 : (0:ℚ) < (ke:ℚ) := by
      have h9 : (2:ℚ) ≤ (ke:ℚ) := by exact_mod_cast hke
      linarith
    positivity
  have hHke : 2 ≤ H * ke := by
    calc 2 = 1 * 2 := by ring
    _ ≤ H * ke := Nat.mul_le_mul hH hke
  have h2x : 2*H*ke = 2*(H*ke) := by ring
  have h2Hke : 4 ≤ 2*H*ke := by omega
  obtain ⟨N2, hN2⟩ : ∃ N2, 2*H*ke = N2 + 2 := ⟨2*H*ke - 2, by omega⟩
  have hsplit : egmGridRows U paso (H*ke+1) (2*H*ke) =
      ((90 : ℚ) - ((0:ℕ) : ℚ) * paso / 60, ((0:ℕ) : ℚ) * paso / 60, U 0 0) ::
      ((90 : ℚ) - ((0:ℕ) : ℚ) * paso / 60, ((1:ℕ) : ℚ) * paso / 60, U 0 1) ::
      (((List.range N2).map fun (j : ℕ) =>
          ((90 : ℚ) - ((0:ℕ) : ℚ) * paso / 60, ((j+2 : ℕ) : ℚ) * paso / 60, U 0 (j+2))) ++
        ((List.range (H*ke)).map fun (bnd : ℕ) =>
          (List.range (2*H*ke)).map fun (j : ℕ) =>
            ((90 : ℚ) - ((bnd+1 : ℕ) : ℚ) * paso / 60, ((j : ℕ) : ℚ) * paso / 60,
             U (bnd+1) j)).flatten) := by
    rw [egmGridRows, rangeMapFlatten_succ]
    rw [hN2, rangeMap_succ, rangeMap_succ]
    rfl
  obtain ⟨tail, hsplit2⟩ : ∃ tail, egmGridRows U paso (H*ke+1) (2*H*ke) =
      ((90 : ℚ) - ((0:ℕ) : ℚ) * paso / 60, ((0:ℕ) : ℚ) * paso / 60, U 0 0) ::
      ((90 : ℚ) - ((0:ℕ) : ℚ) * paso / 60, ((1:ℕ) : ℚ) * paso / 60, U 0 1) :: tail :=
    ⟨_, hsplit⟩
  have hpf2 : pyRound2 (|(((1:ℕ):ℚ) * paso / 60) - (((0:ℕ):ℚ) * paso / 60)| * 60) = paso := by
    have h5 : (((1:ℕ):ℚ) * paso / 60) - (((0:ℕ):ℚ) * paso / 60) = paso / 60 := by
      push_cast
      ring
    rw [h5, abs_of_pos (by positivity), div_mul_cancel₀ _ (by norm_num : (60:ℚ) ≠ 0), hrnd]
  have hdiv2 : (10800:ℚ)/(H:ℚ) = ke * paso := by
    rw [hpaso]
    field_simp
    ring
  have hband2 : ((2*H*ke : ℕ):ℚ) = 360 * 60 / paso := by
    rw [hpaso]
    push_cast
    field_simp
    ring
  rw [hsplit2]
  rw [egm_band_decimation_spec (10800/(H:ℚ)) paso
    ((90 : ℚ) - ((0:ℕ) : ℚ) * paso / 60, ((0:ℕ) : ℚ) * paso / 60, U 0 0)
    ((90 : ℚ) - ((0:ℕ) : ℚ) * paso / 60, ((1:ℕ) : ℚ) * paso / 60, U 0 1)
    tail ke (2*H*ke) (by omega) (by omega) hpf2 hdiv2 hband2]
  rw [← hsplit2]
  have hB : ((⌊(180:ℚ) * 60 / (10800/(H:ℚ))⌋ + 1).toNat) = H + 1 := by
    have h6 : (180:ℚ) * 60 / (10800/(H:ℚ)) = (H:ℚ) := by
      field_simp
      ring
    rw [h6, Int.floor_natCast]
    have h7 : ((H:ℤ) + 1) = ((H+1 : ℕ) : ℤ) := by push_cast; ring
    rw [h7, Int.toNat_natCast]
  rw [hB]
  refine congrArg some (congrArg List.flatten (List.map_congr_left ?_))
  intro bo hbo
  rw [List.mem_range] at hbo
  have hboke : bo * ke ≤ H * ke := Nat.mul_le_mul_right ke (by omega)
  have hdropArith : bo * (ke * (2*H*ke)) = (bo * ke) * (2*H*ke) := by ring
  rw [hdropArith]
  have hdrop2 : (egmGridRows U paso (H*ke+1) (2*H*ke)).drop ((bo*ke) * (2*H*ke)) =
      ((List.range (H*ke+1 - bo*ke)).map fun b2 =>
        (List.range (2*H*ke)).map fun (j:ℕ) =>
          ((90:ℚ) - ((bo*ke + b2 : ℕ):ℚ) * paso / 60, ((j:ℕ):ℚ) * paso / 60,
           U (bo*ke + b2) j)).flatten := by
    rw [egmGridRows]
    exact rangeMapFlatten_drop_blocks (2*H*ke) (bo*ke) (H*ke+1) _ (fun b => by simp) (by omega)
  rw [hdrop2]
  obtain ⟨n3, hn3⟩ : ∃ n3, H*ke+1 - bo*ke = n3 + 1 := ⟨H*ke - bo*ke, by omega⟩
  rw [hn3, rangeMapFlatten_succ]
  rw [List.take_append_of_le_length (by simp)]
  have hz : bo*ke + 0 = bo*ke := by omega
  rw [hz]
  rw [take_range_map _ (2*H*ke - 1) (2*H*ke) (by omega)]
  rw [everyNth_map_eq, everyNth_range ke (by omega)]
  have hcnt : (2*H*ke - 1 + (ke-1))/ke = 2*H := by
    have e2 : ke * (2*H) = 2*H*ke := by ring
    have e1 : 2*H*ke - 1 + (ke - 1) = ke - 2 + ke * (2*H) := by omega
    rw [e1, Nat.add_mul_div_left _ _ (by omega : 0 < ke), Nat.div_eq_of_lt (by omega)]
    omega
  rw [hcnt, List.map_map]
  rfl

theorem rangeMapFlatten_facts {α : Type} (g : ℕ → List α) (n k : ℕ) (hk : 1 ≤ k)
    (hlen : ∀ b, (g b).length = k) :
    (((List.range n).map g).flatten).length = n * k ∧
    ∀ i, i < n * k → (((List.range n).map g).flatten)[i]? = (g (i / k))[i % k]? := by
  have hblocks : ∀ blk ∈ (List.range n).map g, blk.length = k := by
    intro blk hblk
    obtain ⟨b, hb, rfl⟩ := List.mem_map.mp hblk
    exact hlen b
  have hlen2 : (((List.range n).map g).flatten).length = n * k := by
    rw [flatten_const_length k _ hblocks]
    simp
  refine ⟨hlen2, ?_⟩
  intro i hi
  rw [flatten_const_getElem? k hk _ hblocks i (by simpa using hi)]
  have hdivlt : i / k < n := by
    rw [Nat.div_lt_iff_lt_mul (by omega : 0 < k)]
    omega
  rw [List.getElem?_map, List.getElem?_range hdivlt]
  rfl

/-- C1, amended.  For every pair of well-formed global grids whose native
steps exactly divide the target step `10800/H` arc-minutes — elevation grid
of `H*kt+1` rows by `2*H*kt+1` columns (row stride `kt ≥ 1`), undulation
grid of `H*ke+1` bands by `2*H*ke` rows (column stride `ke ≥ 2`, native step
representable at two decimals) — the decimated sequences have equal length
and are positionally aligned: the `i`-th undulation triple carries latitude
`90 - (i / w) * pm/60` and longitude `(i % w) * pm/60` (with `w = 2*H`
columns per output row, latitudes descending from 90°, longitudes ascending
from 0°), and the `i`-th elevation value is the input sample of the same
latitude band whose native longitude equals that longitude or that
longitude minus 360°.  (The original claim, without the divisibility of
10800 by the target step and with `ke = 1` allowed, is refuted by
`decimation_alignment_counterexample`.) -/
theorem decimation_alignment_amended (H kt ke : ℕ) (E U : ℕ → ℕ → ℚ)
    (hH : 1 ≤ H) (hkt : 1 ≤ kt) (hke : 2 ≤ ke)
    (hrnd : pyRound2 (21600 / (2 * (H:ℚ) * ke)) = 21600 / (2 * (H:ℚ) * ke)) :
    ∃ T Uc,
      simplifyETOPO (10800 / (H:ℚ)) (PyFile.mk (etopoGridRows E (H*kt+1) (2*H*kt+1)) 0) =
        some T ∧
      simplifyEGM08 (10800 / (H:ℚ))
        (PyFile.mk (egmGridRows U (21600 / (2 * (H:ℚ) * ke)) (H*ke+1) (2*H*ke)) 0) = some Uc ∧
      T.length = Uc.length ∧
      ∀ i : ℕ, i < T.length →
        Uc[i]? = some ((90:ℚ) - ((i / (2*H) : ℕ) : ℚ) * ((10800:ℚ) / H) / 60,
            ((i % (2*H) : ℕ) : ℚ) * ((10800:ℚ) / H) / 60,
            U ((i / (2*H)) * ke) ((i % (2*H)) * ke)) ∧
        ∃ j : ℕ, T[i]? = some (E ((i / (2*H)) * kt) j * 1000) ∧
          (90:ℚ) - (((i / (2*H)) * kt : ℕ) : ℚ) * ((21600:ℚ) / (2 * (H:ℚ) * kt)) / 60 =
            (90:ℚ) - ((i / (2*H) : ℕ) : ℚ) * ((10800:ℚ) / H) / 60 ∧
          ((-180:ℚ) + (j : ℚ) * ((21600:ℚ) / (2 * (H:ℚ) * kt)) / 60 =
              ((i % (2*H) : ℕ) : ℚ) * ((10800:ℚ) / H) / 60 ∨
           (-180:ℚ) + (j : ℚ) * ((21600:ℚ) / (2 * (H:ℚ) * kt)) / 60 =
              ((i % (2*H) : ℕ) : ℚ) * ((10800:ℚ) / H) / 60 - 360) := by
  have hHQ : ((H : ℚ)) ≠ 0 := Nat.cast_ne_zero.mpr (by omega)
  have hktQ : ((kt : ℚ)) ≠ 0 := Nat.cast_ne_zero.mpr (by omega)
  have hkeQ : ((ke : ℚ)) ≠ 0 := Nat.cast_ne_zero.mpr (by omega)
  obtain ⟨hTlen, hTget⟩ := rangeMapFlatten_facts
    (fun r => (List.range (2*H)).map fun c =>
      (if c * kt < H * kt then E (r * kt) (H * kt + c * kt)
       else E (r * kt) (c * kt - H * kt)) * 1000) (H+1) (2*H) (by omega) (fun r => by simp)
  obtain ⟨hUlen, hUget⟩ := rangeMapFlatten_facts
    (fun bo => (List.range (2*H)).map fun c =>
      ((90 : ℚ) - ((bo*ke : ℕ) : ℚ) * (21600 / (2 * (H:ℚ) * ke)) / 60,
       ((c*ke : ℕ) : ℚ) * (21600 / (2 * (H:ℚ) * ke)) / 60,
       U (bo*ke) (c*ke))) (H+1) (2*H) (by omega) (fun bo => by simp)
  refine ⟨_, _, etopoGrid_decimated H kt E hH hkt,
    egmGrid_decimated H ke U (21600 / (2 * (H:ℚ) * ke)) hH hke rfl hrnd, ?_, ?_⟩
  · rw [hTlen, hUlen]
  · intro i hi
    rw [hTlen] at hi
    have hc : i % (2*H) < 2*H := Nat.mod_lt _ (by omega)
    have hr : i / (2*H) < H + 1 := by
      rw [Nat.div_lt_iff_lt_mul (by omega : 0 < 2*H)]
      omega
    constructor
    · rw [hUget i hi]
      rw [List.getElem?_map, List.getElem?_range hc]
      refine congrArg some ?_
      beta_reduce
      have e1 : (90:ℚ) - ((i / (2*H) * ke : ℕ) : ℚ) * (21600 / (2 * (H:ℚ) * ke)) / 60 =
          (90:ℚ) - ((i / (2*H) : ℕ) : ℚ) * ((10800:ℚ) / H) / 60 := by
        push_cast
        field_simp
        ring
      have e2 : ((i % (2*H) * ke : ℕ) : ℚ) * (21600 / (2 * (H:ℚ) * ke)) / 60 =
          ((i % (2*H) : ℕ) : ℚ) * ((10800:ℚ) / H) / 60 := by
        push_cast
        field_simp
        ring
      rw [e1, e2]
    · refine ⟨if i % (2*H) < H then H*kt + (i % (2*H))*kt else (i % (2*H))*kt - H*kt, ?_, ?_, ?_⟩
      · rw [hTget i hi]
        rw [List.getElem?_map, List.getElem?_range hc]
        refine congrArg some ?_
        beta_reduce
        have hiff : (i % (2*H)) * kt < H * kt ↔ i % (2*H) < H :=
          Nat.mul_lt_mul_right (by omega)
        rcases Nat.lt_or_ge (i % (2*H)) H with hcH | hcH
        · rw [if_pos (hiff.mpr hcH), if_pos hcH]
        · rw [if_neg (by omega : ¬ (i % (2*H)) * kt < H * kt), if_neg (by omega : ¬ i % (2*H) < H)]
      · push_cast
        field_simp
        ring
      · rcases Nat.lt_or_ge (i % (2*H)) H with hcH | hcH
        · left
          rw [if_pos hcH]
          push_cast
          field_simp
          ring
        · right
          rw [if_neg (by omega : ¬ i % (2*H) < H)]
          have hsub : ((i % (2*H) * kt - H * kt : ℕ) : ℚ) =
              ((i % (2*H) : ℕ) : ℚ) * kt - (H : ℚ) * kt := by
            push_cast [Nat.cast_sub (Nat.mul_le_mul_right kt hcH)]
            ring
          rw [hsub]
          field_simp
          ring

/-- C1, counterexample to the claim as stated: both native steps equal the
target step 10800 (exact division with stride 1) on full-globe grids, yet
the decimated elevation sequence has 4 samples and the decimated
undulation sequence only 2 — the lengths differ because each undulation
band keeps only the first `bandHeight − 1` rows. -/
theorem decimation_alignment_counterexample :
    simplifyETOPO 10800
        (PyFile.mk (etopoGridRows (fun r j => ((r : ℚ) * 3 + (j : ℚ) + 1)) 2 3) 0) =
      some [2000, 1000, 5000, 4000] ∧
    simplifyEGM08 10800
        (PyFile.mk (egmGridRows (fun bnd j => (7 + 2 * (bnd : ℚ) + (j : ℚ))) 10800 2 2) 0) =
      some [(90, 0, 7), (-90, 0, 9)] ∧
    ([(2000 : ℚ), 1000, 5000, 4000]).length ≠
      ([((90 : ℚ), (0 : ℚ), (7 : ℚ)), (-90, 0, 9)]).length := by
  refine ⟨?_, ?_, by decide⟩
  · norm_num [etopoGridRows, simplifyETOPO, get_paso_malla_etopo, PyFile.rest, pyInt,
      etopoParseLine, everyNth, everyNthAux, List.range_succ]
  · norm_num [egmGridRows, simplifyEGM08, get_paso_malla_egm, PyFile.rest, pyInt, pyRound2,
      roundHalfEven, Int.fract, egmLoop, everyNth, everyNthAux, List.range_succ]

/-- Witness for the amended C1 at `H = 1`, `kt = 1`, `ke = 2`, zero grids. -/
theorem decimation_alignment_amended_witness :
    ∃ T Uc,
      simplifyETOPO (10800 / ((1:ℕ):ℚ))
        (PyFile.mk (etopoGridRows (fun _ _ => (0:ℚ)) (1*1+1) (2*1*1+1)) 0) = some T ∧
      simplifyEGM08 (10800 / ((1:ℕ):ℚ))
        (PyFile.mk (egmGridRows (fun _ _ => (0:ℚ))
          (21600 / (2 * ((1:ℕ):ℚ) * ((2:ℕ):ℚ))) (1*2+1) (2*1*2)) 0) = some Uc ∧
      T.length = Uc.length ∧
      ∀ i : ℕ, i < T.length →
        Uc[i]? = some ((90:ℚ) - ((i / (2*1) : ℕ) : ℚ) * ((10800:ℚ) / ((1:ℕ):ℚ)) / 60,
            ((i % (2*1) : ℕ) : ℚ) * ((10800:ℚ) / ((1:ℕ):ℚ)) / 60, (0:ℚ)) ∧
        ∃ j : ℕ, T[i]? = some ((0:ℚ) * 1000) ∧
          (90:ℚ) - ((i / (2*1) * 1 : ℕ) : ℚ) * ((21600:ℚ) / (2 * ((1:ℕ):ℚ) * ((1:ℕ):ℚ))) / 60 =
            (90:ℚ) - ((i / (2*1) : ℕ) : ℚ) * ((10800:ℚ) / ((1:ℕ):ℚ)) / 60 ∧
          ((-180:ℚ) + (j : ℚ) * ((21600:ℚ) / (2 * ((1:ℕ):ℚ) * ((1:ℕ):ℚ))) / 60 =
              ((i % (2*1) : ℕ) : ℚ) * ((10800:ℚ) / ((1:ℕ):ℚ)) / 60 ∨
           (-180:ℚ) + (j : ℚ) * ((21600:ℚ) / (2 * ((1:ℕ):ℚ) * ((1:ℕ):ℚ))) / 60 =
              ((i % (2*1) : ℕ) : ℚ) * ((10800:ℚ) / ((1:ℕ):ℚ)) / 60 - 360) :=
  decimation_alignment_amended 1 1 2 (fun _ _ => 0) (fun _ _ => 0) (by norm_num) (by norm_num)
    (by norm_num) (by norm_num [pyRound2, roundHalfEven, Int.fract])
